import Mathlib

/-!
Shallow embedding of the MiniReact fiber/reconciliation/commit core
(`src/core/fiber.js`, `src/core/reconciler.js`, `src/core/commit.js`,
`src/hooks/*.js`) together with theorems settling the frozen claims
about its specification.

Conventions used throughout:
* JavaScript values are modelled by `JSVal`; `Object.is` is modelled by
  decidable equality on `JSVal` (object identity is carried by `JSVal.ref`
  with a numeric id; `NaN`-style floating point corner cases are outside
  the model).
* DOM nodes are identified by numeric handles (`Nat`).
* `null`/`undefined` slots become `Option`; JS truthiness of an
  array-or-null field becomes `Option.isSome`.
-/

namespace MiniReact

/-- JavaScript-like values.  `ref id` stands for an object reference with
identity `id`; equality of `JSVal` models `Object.is`. -/
inductive JSVal where
  | null
  | undef
  | num (n : Int)
  | str (s : String)
  | bool (b : Bool)
  | ref (id : Nat)
deriving DecidableEq, Repr

/-- The effect tags of `src/core/constants.js` (`EFFECT_TAGS`). -/
inductive EffectTag where
  | PLACEMENT
  | UPDATE
  | DELETION
deriving DecidableEq, Repr

/-- A child element description handed to the reconciler: its `type`
(host tag / component reference, compared with `===` in the source, here a
`String` name), the reserved `key` prop and an abstract payload standing
for the remaining props. -/
structure Elem where
  type : String
  key : Option JSVal
  content : JSVal
deriving DecidableEq, Repr

/-- A previous-generation child fiber as seen by `reconcileChildren` /
`reconcileChildrenWithKeys`: type, `props.key`, the owned DOM handle and
the mutable `effectTag` field. -/
structure OldFiber where
  type : String
  key : Option JSVal
  content : JSVal
  dom : Option Nat
  effectTag : Option EffectTag
deriving DecidableEq, Repr

/-- A freshly built fiber produced by one reconciliation pass
(`newFiber` in `src/core/reconciler.js`). -/
structure NewFiber where
  type : String
  key : Option JSVal
  content : JSVal
  dom : Option Nat
  effectTag : EffectTag
  alternate : Option OldFiber
deriving DecidableEq, Repr

/-- The `sameType` fiber built in the reconciler: `effectTag: UPDATE`,
`dom: oldFiber.dom`, `alternate: oldFiber`, `props: element.props`. -/
def mkUpdateFiber (el : Elem) (old : OldFiber) : NewFiber :=
  { type := old.type
    key := el.key
    content := el.content
    dom := old.dom
    effectTag := EffectTag.UPDATE
    alternate := some old }

/-- The `element && !sameType` fiber built in the reconciler:
`effectTag: PLACEMENT`, `dom: null`, `alternate: null`. -/
def mkPlacementFiber (el : Elem) : NewFiber :=
  { type := el.type
    key := el.key
    content := el.content
    dom := none
    effectTag := EffectTag.PLACEMENT
    alternate := none }

/-- Marking an old fiber for deletion (`oldFiber.effectTag = DELETION`)
before pushing it on the deletion lists. -/
def markDeletion (old : OldFiber) : OldFiber :=
  { old with effectTag := some EffectTag.DELETION }

/-- Positional (unkeyed) reconciliation, `reconcileChildren` of
`src/core/reconciler.js`.  The JS loop walks `elements[index]` and the
old sibling chain in lockstep; `elements` entries may be `null`
(e.g. `render(null, container)` passes `[null]`), hence
`List (Option Elem)`.  The first result component is the sequence of
`newFiber` values produced per loop iteration (`none` when the loop left
`newFiber = null`); the second is the deletion list in push order. -/
def reconcileChildren :
    List (Option Elem) → List OldFiber → List (Option NewFiber) × List OldFiber
  | [], [] => ([], [])
  | [], old :: olds =>
      let rest := reconcileChildren [] olds
      (none :: rest.1, markDeletion old :: rest.2)
  | el? :: els, [] =>
      let rest := reconcileChildren els []
      (el?.map mkPlacementFiber :: rest.1, rest.2)
  | el? :: els, old :: olds =>
      let rest := reconcileChildren els olds
      match el? with
      | some el =>
          if el.type = old.type then
            (some (mkUpdateFiber el old) :: rest.1, rest.2)
          else
            (some (mkPlacementFiber el) :: rest.1, markDeletion old :: rest.2)
      | none =>
          (none :: rest.1, markDeletion old :: rest.2)

/-- `temp.props?.key ?? tempIndex` / `element?.props?.key ?? index`:
an explicit key wins, otherwise the positional index becomes the key. -/
def keyOf (key : Option JSVal) (idx : Nat) : JSVal :=
  key.getD (JSVal.num idx)

/-- JS `Map.prototype.set`: overwrite an existing entry in place, else
append (JS maps preserve insertion order). -/
def mapSet (m : List (JSVal × OldFiber)) (k : JSVal) (v : OldFiber) :
    List (JSVal × OldFiber) :=
  if m.any (fun e => e.1 = k) then
    m.map (fun e => if e.1 = k then (k, v) else e)
  else
    m ++ [(k, v)]

/-- JS `Map.prototype.get` as an association-list lookup. -/
def mapGet (m : List (JSVal × OldFiber)) (k : JSVal) : Option OldFiber :=
  (m.find? (fun e => e.1 = k)).map (fun e => e.2)

/-- JS `Map.prototype.delete` (keys are unique inside a JS map, so a
filter removes exactly the one entry). -/
def mapDelete (m : List (JSVal × OldFiber)) (k : JSVal) :
    List (JSVal × OldFiber) :=
  m.filter (fun e => ¬ e.1 = k)

/-- The `while (temp)` loop of `reconcileChildrenWithKeys` building
`oldFiberMap` from the old sibling chain. -/
def buildOldFiberMapAux :
    List OldFiber → Nat → List (JSVal × OldFiber) → List (JSVal × OldFiber)
  | [], _, m => m
  | f :: fs, idx, m => buildOldFiberMapAux fs (idx + 1) (mapSet m (keyOf f.key idx) f)

/-- `oldFiberMap` of `reconcileChildrenWithKeys`. -/
def buildOldFiberMap (olds : List OldFiber) : List (JSVal × OldFiber) :=
  buildOldFiberMapAux olds 0 []

/-- The `while (index < elements.length)` loop of
`reconcileChildrenWithKeys`: per new element, look its key up in the old
fiber map; on a type-matching hit emit an `UPDATE` fiber adopting the old
DOM handle and consume the map entry; otherwise emit a `PLACEMENT`.
Returns the per-iteration `newFiber` values and the leftover map. -/
def reconcileKeyedAux :
    List (Option Elem) → Nat → List (JSVal × OldFiber) →
      List (Option NewFiber) × List (JSVal × OldFiber)
  | [], _, m => ([], m)
  | el? :: els, idx, m =>
      let k := keyOf (el?.bind (fun el => el.key)) idx
      match mapGet m k, el? with
      | some old, some el =>
          if el.type = old.type then
            let rest := reconcileKeyedAux els (idx + 1) (mapDelete m k)
            (some (mkUpdateFiber el old) :: rest.1, rest.2)
          else
            let rest := reconcileKeyedAux els (idx + 1) m
            (some (mkPlacementFiber el) :: rest.1, rest.2)
      | none, some el =>
          let rest := reconcileKeyedAux els (idx + 1) m
          (some (mkPlacementFiber el) :: rest.1, rest.2)
      | _, none =>
          let rest := reconcileKeyedAux els (idx + 1) m
          (none :: rest.1, rest.2)

/-- Keyed reconciliation, `reconcileChildrenWithKeys` of
`src/core/reconciler.js`: build the key map, process the new elements,
then tag every leftover map entry `DELETION` (the final `forEach`). -/
def reconcileChildrenWithKeys (els : List (Option Elem)) (olds : List OldFiber) :
    List (Option NewFiber) × List OldFiber :=
  let res := reconcileKeyedAux els 0 (buildOldFiberMap olds)
  (res.1, res.2.map (fun e => markDeletion e.2))

/-- The child reconciliation an actual (re-)render performs:
`performUnitOfWork` dispatches every fiber to `updateFunctionComponent`
or `updateHostComponent` (`src/core/reconciler.js`), and both call the
positional `reconcileChildren` unconditionally — `reconcileChildrenWithKeys`
is exported but invoked by no render path, only by its unit tests. -/
def renderPathReconcile (els : List (Option Elem)) (olds : List OldFiber) :
    List (Option NewFiber) × List OldFiber :=
  reconcileChildren els olds

/-- A record on `fiber.hooks`: effect hooks carry the callback
(`hook.effect`, a function id or `null`), the stored cleanup
(`hook.cleanup`) and the dependency list (`hook.deps`, which is `null`
when `useEffect` got no deps array); every other hook kind is opaque for
the effect pass. -/
inductive HookRec where
  | effectHook (effectId : Option Nat) (cleanupId : Option Nat) (deps : Option (List JSVal))
  | otherHook
deriving DecidableEq, Repr

/-- `hook.tag === 'effect'`. -/
def HookRec.isEffect : HookRec → Bool
  | effectHook _ _ _ => true
  | otherHook => false

/-- `hook.deps` (reading the field off a non-effect hook yields
`undefined`, i.e. `none`). -/
def HookRec.depsOf : HookRec → Option (List JSVal)
  | effectHook _ _ deps => deps
  | otherHook => none

/-- `hook.cleanup`. -/
def HookRec.cleanupOf : HookRec → Option Nat
  | effectHook _ cleanupId _ => cleanupId
  | otherHook => none

/-- `hook.effect`. -/
def HookRec.effectOf : HookRec → Option Nat
  | effectHook effectId _ _ => effectId
  | otherHook => none

/-- `depsChanged` of `src/core/commit.js` (identical to
`areDependenciesChanged` of `src/hooks/useEffect.js`): a missing list on
either side counts as changed; otherwise compare length and then each
position with `Object.is`. -/
def depsChanged : Option (List JSVal) → Option (List JSVal) → Bool
  | none, _ => true
  | some _, none => true
  | some prev, some next =>
      decide (prev.length ≠ next.length) ||
        (List.zip prev next).any (fun p => decide (p.1 ≠ p.2))

/-- `fiber.alternate.hooks[index]` (absent alternate, absent hooks array
or an out-of-range index all give `undefined`). -/
def oldHookAt (oldHooks : Option (List HookRec)) (i : Nat) : Option HookRec :=
  match oldHooks with
  | none => none
  | some hs => hs.get? i

/-- `oldHook.deps` through the optional old hook. -/
def oldDepsOf : Option HookRec → Option (List JSVal)
  | none => none
  | some h => h.depsOf

/-- `shouldRunCleanup` of `runEffects`:
`oldHook && oldHook.cleanup && (!hook.deps || !oldHook.deps || depsChanged(oldHook.deps, hook.deps))`. -/
def shouldRunCleanup (hook : HookRec) (oldHook? : Option HookRec) : Bool :=
  match oldHook? with
  | none => false
  | some oldHook =>
      oldHook.cleanupOf.isSome &&
        (hook.depsOf.isNone || oldHook.depsOf.isNone ||
          depsChanged oldHook.depsOf hook.depsOf)

/-- `shouldRunEffect` of `runEffects`:
`!hook.deps || !oldHook || depsChanged(oldHook.deps, hook.deps)`. -/
def shouldRunEffect (hook : HookRec) (oldHook? : Option HookRec) : Bool :=
  hook.depsOf.isNone || oldHook?.isNone ||
    depsChanged (oldDepsOf oldHook?) hook.depsOf

/-- The hook record `useEffect` pushes for this generation:
`{tag: 'effect', effect, cleanup: oldHook?.cleanup || null, deps: deps || null}`
(an empty deps array is truthy in JS, so `deps || null` is the identity
on present lists). -/
def useEffectHook (effectId : Option Nat) (deps : Option (List JSVal))
    (oldHook? : Option HookRec) : HookRec :=
  HookRec.effectHook effectId
    (match oldHook? with
     | none => none
     | some oldHook => oldHook.cleanupOf)
    deps

/-- The fiber tree walked by the effect pass: per fiber an id, this
generation's `hooks` and the alternate generation's hook list. -/
inductive EffTree where
  | nil
  | node (fiberId : Nat) (hooks : List HookRec) (oldHooks : Option (List HookRec))
      (child sibling : EffTree)
deriving DecidableEq, Repr

/-- Observable events of the effect pass. -/
inductive EffEvent where
  | cleanupRun (fiberId hookIdx : Nat)
  | effectRun (fiberId hookIdx : Nat)
deriving DecidableEq, Repr

/-- Which fiber an event belongs to. -/
def evFiber : EffEvent → Nat
  | EffEvent.cleanupRun fid _ => fid
  | EffEvent.effectRun fid _ => fid

/-- Cleanup events or not. -/
def isCleanupEv : EffEvent → Bool
  | EffEvent.cleanupRun _ _ => true
  | EffEvent.effectRun _ _ => false

/-- First `forEach` of `runEffects` over one fiber's hooks: run the old
cleanup of every effect hook whose cleanup is due. -/
def cleanupPass (fid : Nat) (oldHooks : Option (List HookRec)) :
    List HookRec → Nat → List EffEvent
  | [], _ => []
  | h :: hs, i =>
      let rest := cleanupPass fid oldHooks hs (i + 1)
      if h.isEffect && shouldRunCleanup h (oldHookAt oldHooks i) then
        EffEvent.cleanupRun fid i :: rest
      else rest

/-- Second `forEach` of `runEffects` over one fiber's hooks: run every
due effect callback (`if (shouldRunEffect && hook.effect)`). -/
def effectPass (fid : Nat) (oldHooks : Option (List HookRec)) :
    List HookRec → Nat → List EffEvent
  | [], _ => []
  | h :: hs, i =>
      let rest := effectPass fid oldHooks hs (i + 1)
      if h.isEffect && shouldRunEffect h (oldHookAt oldHooks i) && h.effectOf.isSome then
        EffEvent.effectRun fid i :: rest
      else rest

/-- `runEffects` of `src/core/commit.js` as an event trace: per fiber
first all its due cleanups, then all its due effects, then recurse into
`fiber.child` and `fiber.sibling`. -/
def runEffectsTrace : EffTree → List EffEvent
  | EffTree.nil => []
  | EffTree.node fid hooks oldHooks c s =>
      cleanupPass fid oldHooks hooks 0 ++ effectPass fid oldHooks hooks 0 ++
        runEffectsTrace c ++ runEffectsTrace s

/-- All fiber ids of a tree. -/
def EffTree.ids : EffTree → List Nat
  | nil => []
  | node fid _ _ c s => fid :: (c.ids ++ s.ids)

/-- Which callbacks throw when invoked: `effectThrows` for effect
callbacks, `cleanupThrows` for cleanup functions (indexed by function
id). -/
structure EffEnv where
  effectThrows : Nat → Bool
  cleanupThrows : Nat → Bool

/-- Did the stale cleanup of this (optional) old hook throw when run? -/
def cleanupThrew (env : EffEnv) (oldHook? : Option HookRec) : Bool :=
  match oldHook? with
  | none => false
  | some oldHook =>
      match oldHook.cleanupOf with
      | none => false
      | some c => env.cleanupThrows c

/-- Did this hook's effect callback throw when run? -/
def effectThrew (env : EffEnv) (h : HookRec) : Bool :=
  match h.effectOf with
  | none => false
  | some e => env.effectThrows e

/-- Events of the effect pass with the per-hook `try`/`catch` visible:
each invocation is a `*Call`, and a throwing callback additionally logs
a `console.error` (`*ErrorLogged`) without aborting the walk. -/
inductive RunEv where
  | cleanupCall (fiberId hookIdx : Nat)
  | cleanupErrorLogged (fiberId hookIdx : Nat)
  | effectCall (fiberId hookIdx : Nat)
  | effectErrorLogged (fiberId hookIdx : Nat)
deriving DecidableEq, Repr

/-- Cleanup pass with failures: `try { oldHook.cleanup() } catch (error)
{ console.error(...) }`. -/
def cleanupPassRun (env : EffEnv) (fid : Nat) (oldHooks : Option (List HookRec)) :
    List HookRec → Nat → List RunEv
  | [], _ => []
  | h :: hs, i =>
      let rest := cleanupPassRun env fid oldHooks hs (i + 1)
      if h.isEffect && shouldRunCleanup h (oldHookAt oldHooks i) then
        RunEv.cleanupCall fid i ::
          (if cleanupThrew env (oldHookAt oldHooks i) then
            RunEv.cleanupErrorLogged fid i :: rest
          else rest)
      else rest

/-- Effect pass with failures: `try { const cleanup = hook.effect(); ... }
catch (error) { console.error(...) }`. -/
def effectPassRun (env : EffEnv) (fid : Nat) (oldHooks : Option (List HookRec)) :
    List HookRec → Nat → List RunEv
  | [], _ => []
  | h :: hs, i =>
      let rest := effectPassRun env fid oldHooks hs (i + 1)
      if h.isEffect && shouldRunEffect h (oldHookAt oldHooks i) && h.effectOf.isSome then
        RunEv.effectCall fid i ::
          (if effectThrew env h then RunEv.effectErrorLogged fid i :: rest else rest)
      else rest

/-- `runEffects` with per-hook failure handling made explicit. -/
def runEffectsRun (env : EffEnv) : EffTree → List RunEv
  | EffTree.nil => []
  | EffTree.node fid hooks oldHooks c s =>
      cleanupPassRun env fid oldHooks hooks 0 ++ effectPassRun env fid oldHooks hooks 0 ++
        runEffectsRun env c ++ runEffectsRun env s

/-- Keep only the invocation events, dropping the error logs. -/
def attemptsOf (evs : List RunEv) : List RunEv :=
  evs.filter fun e =>
    match e with
    | RunEv.cleanupCall _ _ => true
    | RunEv.effectCall _ _ => true
    | _ => false

/-- The invocation corresponding to an ideal (no-failure) trace event. -/
def evToCall : EffEvent → RunEv
  | EffEvent.cleanupRun fid i => RunEv.cleanupCall fid i
  | EffEvent.effectRun fid i => RunEv.effectCall fid i

/-- A fiber tree as seen by `commitDeletion`/`cleanupEffects`: the owned
DOM handle, the hook list and the child/sibling links. -/
inductive DTree where
  | nil
  | node (dom : Option Nat) (hooks : List HookRec) (child sibling : DTree)
deriving DecidableEq, Repr

/-- One fiber's hook list under `cleanupEffects`: every effect hook with
a stored cleanup has it invoked (recorded by id) and nulled out
(`hook.cleanup = null`). -/
def cleanupHooks : List HookRec → List HookRec × List Nat
  | [] => ([], [])
  | h :: hs =>
      let rest := cleanupHooks hs
      match h with
      | HookRec.effectHook e (some c) d =>
          (HookRec.effectHook e none d :: rest.1, c :: rest.2)
      | _ => (h :: rest.1, rest.2)

/-- `cleanupEffects` of `src/core/commit.js`: clean the fiber's own
hooks, then recurse into `fiber.child` and `fiber.sibling`.  Returns the
mutated tree and the cleanup invocations in call order. -/
def cleanupTree : DTree → DTree × List Nat
  | DTree.nil => (DTree.nil, [])
  | DTree.node dom hooks c s =>
      let hk := cleanupHooks hooks
      let cc := cleanupTree c
      let sc := cleanupTree s
      (DTree.node dom hk.1 cc.1 sc.1, hk.2 ++ cc.2 ++ sc.2)

/-- Node count, used as the termination measure of `commitDeletion`. -/
def DTree.size : DTree → Nat
  | nil => 0
  | node _ _ c s => c.size + s.size + 1

theorem cleanupHooks_length (hs : List HookRec) :
    (cleanupHooks hs).1.length = hs.length := by
  induction hs with
  | nil => simp [cleanupHooks]
  | cons h hs ih =>
      cases h with
      | effectHook e c d =>
          cases c <;> simp [cleanupHooks, ih]
      | otherHook => simp [cleanupHooks, ih]

theorem cleanupTree_size (t : DTree) : (cleanupTree t).1.size = t.size := by
  induction t with
  | nil => simp [cleanupTree, DTree.size]
  | node dom hooks c s ihc ihs =>
      simp [cleanupTree, DTree.size, ihc, ihs]

/-- `commitDeletion` of `src/core/commit.js`, threading the container
(its top-level DOM children, the removal target list) and collecting
cleanup invocations.  A fiber owning a DOM node still inside the
container runs `cleanupEffects` for its whole subtree (own hooks, child
and sibling chains) before `removeChild`, then continues on the
already-cleaned sibling; a DOM-less (component) fiber runs
`cleanupEffects` and then recurses into the cleaned child and sibling.
Because `cleanupEffects` nulls each invoked cleanup, a later visit to
the same hook performs no second invocation. -/
def commitDeletion : DTree → List Nat → DTree × List Nat × List Nat
  | DTree.nil, cont => (DTree.nil, cont, [])
  | DTree.node (some d) hooks c s, cont =>
      if d ∈ cont then
        let hk := cleanupHooks hooks
        let cc := cleanupTree c
        let sc := cleanupTree s
        let cont1 := cont.erase d
        let r := commitDeletion sc.1 cont1
        (DTree.node (some d) hk.1 cc.1 r.1, r.2.1, hk.2 ++ cc.2 ++ sc.2 ++ r.2.2)
      else
        let r := commitDeletion s cont
        (DTree.node (some d) hooks c r.1, r.2.1, r.2.2)
  | DTree.node none hooks c s, cont =>
      let hk := cleanupHooks hooks
      let cc := cleanupTree c
      let sc := cleanupTree s
      let r1 := commitDeletion cc.1 cont
      let r2 := commitDeletion sc.1 r1.2.1
      (DTree.node none hk.1 r1.1 r2.1, r2.2.1, hk.2 ++ cc.2 ++ sc.2 ++ r1.2.2 ++ r2.2.2)
termination_by t _ => t.size
decreasing_by
  all_goals simp only [cleanupTree_size, DTree.size]
  all_goals omega

/-- The deletion pass of `commitRoot`: each entry of the deletion list
is committed against the container in order. -/
def commitDeletions (dels : List DTree) (cont : List Nat) : List Nat × List Nat :=
  dels.foldl
    (fun acc del =>
      let r := commitDeletion del acc.1
      (r.2.1, acc.2 ++ r.2.2))
    (cont, [])

/-- A root fiber as built by `render`/`scheduleRerender`: its identity
and the identity of its `alternate` (the previously committed root). -/
structure RootFiber where
  id : Nat
  alternateId : Option Nat
deriving DecidableEq, Repr

/-- The module-level scheduler state of `src/core/fiber.js` that the
commit phase manipulates. -/
structure WLState where
  nextUnitOfWork : Option Nat
  currentRoot : Option RootFiber
  wipRoot : Option RootFiber
deriving DecidableEq, Repr

/-- Observable events of the commit phase of `workLoop`. -/
inductive WLEv where
  | commitRootEv (rootId : Nat)
  | currentRootSwapEv (rootId : Nat)
  | runEffectsEv (rootId : Nat)
  | warnNoCurrentRootEv
  | scheduledEv (newRootId : Nat)
deriving DecidableEq, Repr

/-- `scheduleRerender` of `src/core/fiber.js`: with no committed root it
only warns; otherwise it builds a fresh wip root whose `alternate` is
the current committed root and re-seeds `nextUnitOfWork`. -/
def scheduleRerenderS (freshId : Nat) (s : WLState) : WLState × List WLEv :=
  match s.currentRoot with
  | none => (s, [WLEv.warnNoCurrentRootEv])
  | some cr =>
      ({ s with
          wipRoot := some { id := freshId, alternateId := some cr.id }
          nextUnitOfWork := some freshId },
        [WLEv.scheduledEv freshId])

/-- The tail of `workLoop` once the render pass has finished
(`!nextUnitOfWork && wipRoot`): commit, swap `currentRoot` to the
completed root, clear `wipRoot`, then run effects (modelled by an
arbitrary state transformer `eff`, e.g. a `setState` issued from inside
an effect), and finally decide whether the loop re-enters
(`nextUnitOfWork || wipRoot`). -/
def workLoopCommitPhase (eff : WLState → WLState × List WLEv) (s : WLState) :
    WLState × List WLEv × Bool :=
  match s.nextUnitOfWork, s.wipRoot with
  | none, some r =>
      let s1 : WLState := { s with currentRoot := some r, wipRoot := none }
      let e := eff s1
      (e.1,
        [WLEv.commitRootEv r.id, WLEv.currentRootSwapEv r.id, WLEv.runEffectsEv r.id] ++ e.2,
        e.1.nextUnitOfWork.isSome || e.1.wipRoot.isSome)
  | _, _ => (s, [], s.nextUnitOfWork.isSome || s.wipRoot.isSome)

/-- Pending state updates: a plain value or a functional updater
(`typeof action === 'function'`). -/
inductive UpdateAction where
  | value (v : JSVal)
  | updater (f : JSVal → JSVal)

/-- Applying one queued action to the running state
(`typeof action === 'function' ? action(currentState) : action`). -/
def applyAction (a : UpdateAction) (st : JSVal) : JSVal :=
  match a with
  | UpdateAction.value v => v
  | UpdateAction.updater f => f st

/-- JS `Map.prototype.get` on a string-keyed map. -/
def smapGet {α : Type} (m : List (String × α)) (k : String) : Option α :=
  (m.find? (fun e => e.1 = k)).map (fun e => e.2)

/-- JS `Map.prototype.set` on a string-keyed map. -/
def smapSet {α : Type} (m : List (String × α)) (k : String) (v : α) :
    List (String × α) :=
  if m.any (fun e => e.1 = k) then
    m.map (fun e => if e.1 = k then (k, v) else e)
  else
    m ++ [(k, v)]

/-- JS `Map.prototype.has`. -/
def smapHas {α : Type} (m : List (String × α)) (k : String) : Bool :=
  m.any (fun e => e.1 = k)

/-- The module-level maps of `src/hooks/useState.js`: `updateQueues` and
`hookStates`, both keyed by the derived hook key string. -/
structure HookStore where
  updateQueues : List (String × List UpdateAction)
  hookStates : List (String × JSVal)

/-- `hookKey` derivation in `useState`/`useReducer`:
`` `${wipFiber.type?.name || wipFiber.type?.toString() || 'anonymous'}_${hookIndex}` ``.
`typeName` stands for the resolved name part. -/
def hookKey (typeName : String) (hookIndex : Nat) : String :=
  typeName ++ "_" ++ toString hookIndex

/-- A function-component work unit: the resolved name of its `type` and
its own object identity (which does NOT enter the hook key). -/
structure WorkUnit where
  typeName : String
  unitId : Nat
deriving DecidableEq, Repr

/-- The hook key a `useState`/`useReducer` call derives inside a given
work unit. -/
def unitHookKey (u : WorkUnit) (hookIndex : Nat) : String :=
  hookKey u.typeName hookIndex

/-- The read/drain half of `useState` executed during a render: ensure
the queue exists, take the persisted state (or the initial value on
first use), drain the queued actions in enqueue order against the
running value, clear the queue and persist the result.  (The source also
persists the initial value before draining; the final `hookStates.set`
makes that intermediate write unobservable here.) -/
def useStateRead (key : String) (initial : JSVal) (st : HookStore) :
    JSVal × HookStore :=
  let st1 :=
    if smapHas st.updateQueues key then st
    else { st with updateQueues := smapSet st.updateQueues key [] }
  let queue := (smapGet st1.updateQueues key).getD []
  let current :=
    match smapGet st1.hookStates key with
    | some v => v
    | none => initial
  let final := queue.foldl (fun acc a => applyAction a acc) current
  (final,
    { updateQueues := smapSet st1.updateQueues key []
      hookStates := smapSet st1.hookStates key final })

/-- The scheduler facts relevant to `setState` batching: whether a
committed root exists, whether a wip root is pending, and how many
`scheduleRerender` warnings fired. -/
structure Sched where
  currentRootSet : Bool
  wipPending : Bool
  warned : Nat
deriving DecidableEq, Repr

/-- `scheduleRerender` coalescing as seen from `setState`: repeated
calls just overwrite the pending wip root. -/
def scheduleRerenderB (sch : Sched) : Sched :=
  if sch.currentRootSet then { sch with wipPending := true }
  else { sch with warned := sch.warned + 1 }

/-- The `setState` closure of `useState`: compute the candidate next
value against the PERSISTED state, skip entirely when `Object.is` says
it is unchanged, otherwise push the action on the hook's queue
(`if (hookQueue)`) and call `scheduleRerender`. -/
def setStateCall (key : String) (action : UpdateAction) (st : HookStore)
    (sch : Sched) : HookStore × Sched :=
  let current := (smapGet st.hookStates key).getD JSVal.undef
  let nextValue := applyAction action current
  if nextValue = current then (st, sch)
  else
    let st1 :=
      match smapGet st.updateQueues key with
      | none => st
      | some q => { st with updateQueues := smapSet st.updateQueues key (q ++ [action]) }
    (st1, scheduleRerenderB sch)

/-- Whole-system state for the batching scenario: the hook maps, the
scheduler flags and a render counter. -/
structure BatchSys where
  store : HookStore
  sched : Sched
  renders : Nat

/-- One synchronous trigger cycle issuing several `setState` calls. -/
def dispatchEvent (key : String) (actions : List UpdateAction) (s : BatchSys) :
    BatchSys :=
  actions.foldl
    (fun acc a =>
      let r := setStateCall key a acc.store acc.sched
      { acc with store := r.1, sched := r.2 })
    s

/-- One render pass over the single-`useState` component: the wip root
is consumed (committed and cleared), the hook is read (draining its
queue) and one render is counted. -/
def renderOnce (key : String) (initial : JSVal) (s : BatchSys) : BatchSys :=
  let r := useStateRead key initial s.store
  { store := r.2
    sched := { s.sched with wipPending := false }
    renders := s.renders + 1 }

/-- The work loop driving renders while a wip root is pending. -/
def workLoopB (key : String) (initial : JSVal) : Nat → BatchSys → BatchSys
  | 0, s => s
  | fuel + 1, s =>
      if s.sched.wipPending then
        workLoopB key initial fuel (renderOnce key initial s)
      else s

/-- `validateHookCall` of `src/hooks/hookUtils.js`: throws
`` `${hookName}: must be called within a component` `` when no current
fiber is set. -/
def validateHookCall (hookName : String) (fiber? : Option Unit) :
    Except String Unit :=
  match fiber? with
  | none => Except.error (hookName ++ ": must be called within a component")
  | some _ => Except.ok ()

/-- Entry validation of `useState`. -/
def useStateEntry (fiber? : Option Unit) : Except String Unit :=
  validateHookCall "useState" fiber?

/-- Entry validation of `useEffect`: the effect argument is checked to
be a function first, then the hook-context check runs.
`effectIsFunction` abstracts `typeof effect === 'function'`. -/
def useEffectEntry (effectIsFunction : Bool) (fiber? : Option Unit) :
    Except String Unit :=
  if effectIsFunction then validateHookCall "useEffect" fiber?
  else Except.error "useEffect: effect must be a function"

/-- Entry validation of `useReducer`. -/
def useReducerEntry (fiber? : Option Unit) : Except String Unit :=
  validateHookCall "useReducer" fiber?

/-- Entry validation of `useRef`. -/
def useRefEntry (fiber? : Option Unit) : Except String Unit :=
  validateHookCall "useRef" fiber?

/-- Entry validation of `useMemo`: it does not go through
`validateHookCall`; it checks the compute argument and then throws its
own `useMemo: must be called within a component`. -/
def useMemoEntry (computeIsFunction : Bool) (fiber? : Option Unit) :
    Except String Unit :=
  if ¬ computeIsFunction then
    Except.error "useMemo: first argument must be a function"
  else
    match fiber? with
    | none => Except.error "useMemo: must be called within a component"
    | some _ => Except.ok ()

/-- Entry validation of `useCallback`: the hook simply delegates,
`return useMemo(() => callback, deps)`, and the wrapped arrow function
is always a function, so any context error surfaces from `useMemo`. -/
def useCallbackEntry (fiber? : Option Unit) : Except String Unit :=
  useMemoEntry true fiber?

/-- Entry validation of `useContext`: the hook-context check runs first,
then `if (!context || !context._contextId) throw ...`.  `contextValid`
abstracts that test. -/
def useContextEntry (contextValid : Bool) (fiber? : Option Unit) :
    Except String Unit :=
  match validateHookCall "useContext" fiber? with
  | Except.error e => Except.error e
  | Except.ok _ =>
      if contextValid then Except.ok ()
      else Except.error "useContext must be called with a valid context object"

/-- Whether one character sequence begins with another. -/
def charsStartWith : List Char → List Char → Bool
  | _, [] => true
  | [], _ :: _ => false
  | c :: cs, d :: ds => c = d && charsStartWith cs ds

/-- Whether a character sequence occurs inside another. -/
def charsContain (m h : List Char) : Bool :=
  match m with
  | [] => charsStartWith [] h
  | _ :: rest => charsStartWith m h || charsContain rest h

/-- Whether an error message names a given hook (the hook's name occurs
in the message text). -/
def mentionsHook (msg hook : String) : Bool :=
  charsContain msg.toList hook.toList

/-- Whether a hook entry rejects with a message mentioning `hook`. -/
def errorNaming (r : Except String Unit) (hook : String) : Bool :=
  match r with
  | Except.error m => mentionsHook m hook
  | Except.ok _ => false

/-- A concrete `span` element for witness instances. -/
def spanEl : Elem := { type := "span", key := none, content := JSVal.num 0 }

/-- A concrete previous-generation `div` fiber for witness instances. -/
def divOld : OldFiber :=
  { type := "div", key := none, content := JSVal.num 0, dom := some 3, effectTag := none }

/-- The key an old fiber with an explicit key contributes to the map. -/
def oldKeyD (f : OldFiber) : JSVal :=
  f.key.getD JSVal.undef

/-- The key a present element with an explicit key uses for the lookup. -/
def elKeyD (el : Elem) : JSVal :=
  el.key.getD JSVal.undef

/-- A keyed `li` fiber of the previous generation for witness instances. -/
def liOld (k : String) (d : Nat) : OldFiber :=
  { type := "li", key := some (JSVal.str k), content := JSVal.str k,
    dom := some d, effectTag := none }

/-- A keyed `li` element for witness instances. -/
def liEl (k : String) : Elem :=
  { type := "li", key := some (JSVal.str k), content := JSVal.str k }

/-- The spec's whole-tree ordering: a trace runs all cleanups strictly
before any effect exactly when splitting it into its cleanup events
followed by its effect events reproduces it. -/
def wholeTreeCleanupsFirst (tr : List EffEvent) : Prop :=
  tr.filter (fun e => isCleanupEv e) ++ tr.filter (fun e => !(isCleanupEv e)) = tr

/-- Two sibling fibers, each with one effect hook whose deps changed
(so both a stale cleanup and a new effect are due on each). -/
def twoEffectfulSiblings : EffTree :=
  EffTree.node 0 [] none
    (EffTree.node 1 [HookRec.effectHook (some 1) none (some [JSVal.num 1])]
      (some [HookRec.effectHook (some 1) (some 11) (some [JSVal.num 0])])
      EffTree.nil
      (EffTree.node 2 [HookRec.effectHook (some 2) none (some [JSVal.num 1])]
        (some [HookRec.effectHook (some 2) (some 22) (some [JSVal.num 0])])
        EffTree.nil EffTree.nil))
    EffTree.nil

/-- Hook key of the single state hook of a component named `Counter`. -/
def batchKey : String := "Counter_0"

/-- Store with one persisted state cell at value `0` and an empty queue. -/
def batchStore : HookStore :=
  { updateQueues := [(batchKey, [])], hookStates := [(batchKey, JSVal.num 0)] }

/-- Scheduler state with a committed root, idle. -/
def batchSched : Sched :=
  { currentRootSet := true, wipPending := false, warned := 0 }

/-- `setCount(1); setCount(2); setCount(3)`. -/
def batchActions : List UpdateAction :=
  [UpdateAction.value (JSVal.num 1), UpdateAction.value (JSVal.num 2),
    UpdateAction.value (JSVal.num 3)]

/-- The previously mounted effectful component: a DOM-less function
component fiber whose hook stored cleanup `c`, over a host child owning
DOM node `d` (which is a child of the container). -/
def unmountedComponent (c d : Nat) : DTree :=
  DTree.node none [HookRec.effectHook (some 5) (some c) (some [])]
    (DTree.node (some d) [] DTree.nil DTree.nil) DTree.nil

/-- The no-op effects step (no `setState` issued from any effect). -/
def noEffect : WLState → WLState × List WLEv :=
  fun st => (st, [])

/-! ## Theorems -/

theorem reconcileChildren_update_needs_same_type
    (els : List (Option Elem)) (olds : List OldFiber) (j : Nat) (f : NewFiber)
    (hf : (reconcileChildren els olds).1.get? j = some (some f))
    (hupd : f.effectTag = EffectTag.UPDATE) :
    ∃ e o, els.get? j = some (some e) ∧ olds.get? j = some o ∧ e.type = o.type := by
  induction els, olds using reconcileChildren.induct generalizing j with
  | case1 =>
      simp [reconcileChildren] at hf
  | case2 old olds ih =>
      match j with
      | 0 => simp [reconcileChildren] at hf
      | j + 1 =>
          obtain ⟨e, o, he, ho, hty⟩ := ih j (by simpa [reconcileChildren] using hf)
          simp at he
  | case3 el? els ih =>
      match j with
      | 0 =>
          match el? with
          | none => simp [reconcileChildren] at hf
          | some el =>
              simp [reconcileChildren, mkPlacementFiber] at hf
              rw [← hf] at hupd
              simp at hupd
      | j + 1 =>
          obtain ⟨e, o, he, ho, hty⟩ := ih j (by simpa [reconcileChildren] using hf)
          simp at ho
  | case4 els old olds el hty ih =>
      match j with
      | 0 => exact ⟨el, old, rfl, rfl, hty⟩
      | j + 1 =>
          obtain ⟨e, o, he, ho, h2⟩ := ih j (by simpa [reconcileChildren, hty] using hf)
          exact ⟨e, o, he, ho, h2⟩
  | case5 els old olds el hty ih =>
      match j with
      | 0 =>
          simp [reconcileChildren, hty, mkPlacementFiber] at hf
          rw [← hf] at hupd
          simp at hupd
      | j + 1 =>
          obtain ⟨e, o, he, ho, h2⟩ := ih j (by simpa [reconcileChildren, hty] using hf)
          exact ⟨e, o, he, ho, h2⟩
  | case6 els old olds ih =>
      match j with
      | 0 => simp [reconcileChildren] at hf
      | j + 1 =>
          obtain ⟨e, o, he, ho, h2⟩ := ih j (by simpa [reconcileChildren] using hf)
          exact ⟨e, o, he, ho, h2⟩

theorem reconcileChildren_mismatch_marks
    (els : List (Option Elem)) (olds : List OldFiber) (i : Nat)
    (el : Elem) (old : OldFiber)
    (hel : els.get? i = some (some el))
    (hold : olds.get? i = some old)
    (hne : el.type ≠ old.type) :
    markDeletion old ∈ (reconcileChildren els olds).2 ∧
      (reconcileChildren els olds).1.get? i = some (some (mkPlacementFiber el)) := by
  induction els, olds using reconcileChildren.induct generalizing i with
  | case1 => simp at hel
  | case2 old2 olds ih =>
      simp at hel
  | case3 el? els ih =>
      match i with
      | 0 => simp at hold
      | i + 1 =>
          obtain ⟨h1, h2⟩ := ih i (by simpa using hel) (by simp at hold)
          simp at hold
  | case4 els old2 olds el2 hty ih =>
      match i with
      | 0 =>
          simp at hel hold
          rw [hel, hold] at hty
          exact absurd hty hne
      | i + 1 =>
          obtain ⟨h1, h2⟩ := ih i (by simpa using hel) (by simpa using hold)
          exact ⟨by simp [reconcileChildren, hty, h1],
            by simpa [reconcileChildren, hty] using h2⟩
  | case5 els old2 olds el2 hty ih =>
      match i with
      | 0 =>
          simp at hel hold
          subst hel hold
          simp [reconcileChildren, hty]
      | i + 1 =>
          obtain ⟨h1, h2⟩ := ih i (by simpa using hel) (by simpa using hold)
          exact ⟨by simp [reconcileChildren, hty, h1],
            by simpa [reconcileChildren, hty] using h2⟩
  | case6 els old2 olds ih =>
      match i with
      | 0 => simp at hel
      | i + 1 =>
          obtain ⟨h1, h2⟩ := ih i (by simpa using hel) (by simpa using hold)
          exact ⟨by simp [reconcileChildren, h1],
            by simpa [reconcileChildren] using h2⟩

/-- C5.  In positional (unkeyed) reconciliation, a kind change at a
shared position marks the old child `DELETION` (pushing it on the
deletion list) and emits a fresh `PLACEMENT` fiber with no adopted DOM
handle and no alternate; and an `UPDATE` fiber is only ever emitted at a
position where the old child and the new element have the same kind. -/
theorem positional_type_mismatch_replaces
    (els : List (Option Elem)) (olds : List OldFiber) (i : Nat)
    (el : Elem) (old : OldFiber)
    (hel : els.get? i = some (some el))
    (hold : olds.get? i = some old)
    (hne : el.type ≠ old.type) :
    (markDeletion old ∈ (reconcileChildren els olds).2 ∧
      (markDeletion old).effectTag = some EffectTag.DELETION) ∧
    (∃ f, (reconcileChildren els olds).1.get? i = some (some f) ∧
      f.effectTag = EffectTag.PLACEMENT ∧ f.dom = none ∧ f.alternate = none) ∧
    (∀ j f, (reconcileChildren els olds).1.get? j = some (some f) →
      f.effectTag = EffectTag.UPDATE →
      ∃ e o, els.get? j = some (some e) ∧ olds.get? j = some o ∧ e.type = o.type) := by
  obtain ⟨h1, h2⟩ := reconcileChildren_mismatch_marks els olds i el old hel hold hne
  refine ⟨⟨h1, rfl⟩, ⟨mkPlacementFiber el, h2, rfl, rfl, rfl⟩, ?_⟩
  intro j f hf hupd
  exact reconcileChildren_update_needs_same_type els olds j f hf hupd

/-- Witness for C5: position 0 changes kind from `div` to `span`. -/
theorem positional_type_mismatch_replaces_witness :
    [some spanEl].get? 0 = some (some spanEl) ∧
    [divOld].get? 0 = some divOld ∧
    spanEl.type ≠ divOld.type ∧
    ((markDeletion divOld ∈ (reconcileChildren [some spanEl] [divOld]).2 ∧
        (markDeletion divOld).effectTag = some EffectTag.DELETION) ∧
      (∃ f, (reconcileChildren [some spanEl] [divOld]).1.get? 0 = some (some f) ∧
        f.effectTag = EffectTag.PLACEMENT ∧ f.dom = none ∧ f.alternate = none) ∧
      (∀ j f, (reconcileChildren [some spanEl] [divOld]).1.get? j = some (some f) →
        f.effectTag = EffectTag.UPDATE →
        ∃ e o, [some spanEl].get? j = some (some e) ∧
          [divOld].get? j = some o ∧ e.type = o.type)) :=
  ⟨rfl, rfl, by decide,
    positional_type_mismatch_replaces [some spanEl] [divOld] 0 spanEl divOld rfl rfl (by decide)⟩

theorem mapSet_append (m : List (JSVal × OldFiber)) (k : JSVal) (v : OldFiber)
    (h : k ∉ m.map Prod.fst) : mapSet m k v = m ++ [(k, v)] := by
  have : m.any (fun e => e.1 = k) = false := by
    simp only [List.any_eq_false, decide_eq_true_eq]
    intro e he
    intro hek
    exact h (hek ▸ List.mem_map_of_mem Prod.fst he)
  simp [mapSet, this]

theorem buildOldFiberMapAux_explicit (olds : List OldFiber) (idx : Nat)
    (m : List (JSVal × OldFiber))
    (hex : ∀ f ∈ olds, f.key.isSome)
    (hnd : (m.map Prod.fst ++ olds.map oldKeyD).Nodup) :
    buildOldFiberMapAux olds idx m = m ++ olds.map (fun f => (oldKeyD f, f)) := by
  induction olds generalizing idx m with
  | nil => simp [buildOldFiberMapAux]
  | cons f fs ih =>
      have hkf : f.key.isSome := hex f (List.mem_cons_self f fs)
      obtain ⟨k, hk⟩ := Option.isSome_iff_exists.mp hkf
      have hkey : keyOf f.key idx = oldKeyD f := by
        simp [keyOf, oldKeyD, hk]
      have hdisj : (m.map Prod.fst).Disjoint (oldKeyD f :: fs.map oldKeyD) := by
        have := hnd
        simp only [List.map_cons] at this
        exact List.disjoint_of_nodup_append this
      have hkm : oldKeyD f ∉ m.map Prod.fst := by
        intro hmem
        exact hdisj hmem (List.mem_cons_self _ _)
      have hstep : mapSet m (keyOf f.key idx) f = m ++ [(oldKeyD f, f)] := by
        rw [hkey]
        exact mapSet_append m (oldKeyD f) f hkm
      have hnd2 : ((m ++ [(oldKeyD f, f)]).map Prod.fst ++ fs.map oldKeyD).Nodup := by
        simp only [List.map_append, List.map_cons, List.map_nil, List.append_assoc]
        simpa [List.map_cons] using hnd
      have hex2 : ∀ g ∈ fs, g.key.isSome := fun g hg => hex g (List.mem_cons_of_mem f hg)
      calc buildOldFiberMapAux (f :: fs) idx m
          = buildOldFiberMapAux fs (idx + 1) (mapSet m (keyOf f.key idx) f) := rfl
        _ = buildOldFiberMapAux fs (idx + 1) (m ++ [(oldKeyD f, f)]) := by rw [hstep]
        _ = (m ++ [(oldKeyD f, f)]) ++ fs.map (fun g => (oldKeyD g, g)) :=
            ih (idx + 1) _ hex2 hnd2
        _ = m ++ (f :: fs).map (fun g => (oldKeyD g, g)) := by
            simp [List.append_assoc]

theorem buildOldFiberMap_explicit (olds : List OldFiber)
    (hex : ∀ f ∈ olds, f.key.isSome)
    (hnd : (olds.map oldKeyD).Nodup) :
    buildOldFiberMap olds = olds.map (fun f => (oldKeyD f, f)) := by
  simpa [buildOldFiberMap] using
    buildOldFiberMapAux_explicit olds 0 [] hex (by simpa using hnd)

theorem mapGet_of_mem (m : List (JSVal × OldFiber)) (k : JSVal) (v : OldFiber)
    (hnd : (m.map Prod.fst).Nodup) (hmem : (k, v) ∈ m) :
    mapGet m k = some v := by
  induction m with
  | nil => simp at hmem
  | cons e m ih =>
      rcases List.mem_cons.mp hmem with h | h
      · subst h
        simp [mapGet, List.find?]
      · have hk : ¬ e.1 = k := by
          intro hek
          have : e.1 ∈ m.map Prod.fst := hek ▸ List.mem_map_of_mem Prod.fst h
          simp only [List.map_cons, List.nodup_cons] at hnd
          exact hnd.1 this
        have hnd2 : (m.map Prod.fst).Nodup := by
          simp only [List.map_cons, List.nodup_cons] at hnd
          exact hnd.2
        simpa [mapGet, List.find?, hk] using ih hnd2 h

theorem reconcileKeyedAux_cons_update (el : Elem) (els : List (Option Elem))
    (idx : Nat) (m : List (JSVal × OldFiber)) (k : JSVal) (old : OldFiber)
    (hk : el.key = some k) (hget : mapGet m k = some old)
    (hty : el.type = old.type) :
    reconcileKeyedAux (some el :: els) idx m =
      (some (mkUpdateFiber el old) :: (reconcileKeyedAux els (idx + 1) (mapDelete m k)).1,
        (reconcileKeyedAux els (idx + 1) (mapDelete m k)).2) := by
  simp [reconcileKeyedAux, keyOf, hk, hget, hty]

theorem reconcileKeyedAux_all_matched
    (els : List Elem) (idx : Nat) (m : List (JSVal × OldFiber))
    (hm : (m.map Prod.fst).Nodup)
    (helK : ∀ el ∈ els, el.key.isSome)
    (helnd : (els.map elKeyD).Nodup)
    (hmatch : ∀ el ∈ els, ∃ old, (elKeyD el, old) ∈ m ∧ old.type = el.type)
    (hcover : ∀ p ∈ m, p.1 ∈ els.map elKeyD) :
    (∀ i el, els.get? i = some el →
      ∃ old, (elKeyD el, old) ∈ m ∧ old.type = el.type ∧
        (reconcileKeyedAux (els.map some) idx m).1.get? i =
          some (some (mkUpdateFiber el old))) ∧
    (reconcileKeyedAux (els.map some) idx m).2 = [] := by
  induction els generalizing idx m with
  | nil =>
      have hm0 : m = [] := by
        cases m with
        | nil => rfl
        | cons p m2 =>
            exact absurd (hcover p (List.mem_cons_self p m2)) (by simp)
      subst hm0
      exact ⟨fun i el h => by simp at h, by simp [reconcileKeyedAux]⟩
  | cons el rest ih =>
      obtain ⟨k, hk⟩ := Option.isSome_iff_exists.mp (helK el (List.mem_cons_self el rest))
      have hkeyel : elKeyD el = k := by simp [elKeyD, hk]
      obtain ⟨old, hmem, hty⟩ := hmatch el (List.mem_cons_self el rest)
      have hget : mapGet m k = some old := mapGet_of_mem m k old hm (hkeyel ▸ hmem)
      have hunfold := reconcileKeyedAux_cons_update el (rest.map some) idx m k old hk hget hty.symm
      have hmdel : ∀ p, p ∈ mapDelete m k → p ∈ m := by
        intro p hp
        exact List.mem_of_mem_filter hp
      have hm2 : ((mapDelete m k).map Prod.fst).Nodup :=
        List.Nodup.sublist (List.Sublist.map Prod.fst (List.filter_sublist m)) hm
      have hknotin : k ∉ rest.map elKeyD := by
        have := helnd
        simp only [List.map_cons, List.nodup_cons] at this
        exact hkeyel ▸ this.1
      have hmatch2 : ∀ e ∈ rest, ∃ o, (elKeyD e, o) ∈ mapDelete m k ∧ o.type = e.type := by
        intro e he
        obtain ⟨o, ho, hoty⟩ := hmatch e (List.mem_cons_of_mem el he)
        refine ⟨o, ?_, hoty⟩
        have hne : ¬ elKeyD e = k := by
          intro heq
          exact hknotin (heq ▸ List.mem_map_of_mem elKeyD he)
        simp only [mapDelete, List.mem_filter]
        exact ⟨ho, by simpa using hne⟩
      have hcover2 : ∀ p ∈ mapDelete m k, p.1 ∈ rest.map elKeyD := by
        intro p hp
        have hpm : p ∈ m := hmdel p hp
        have hpk : ¬ p.1 = k := by
          have := List.of_mem_filter hp
          simpa using this
        have := hcover p hpm
        simp only [List.map_cons] at this
        rcases List.mem_cons.mp this with h | h
        · exact absurd (hkeyel ▸ h) hpk
        · exact h
      have hrest := ih (idx + 1) (mapDelete m k) hm2
        (fun e he => helK e (List.mem_cons_of_mem el he))
        (by
          have := helnd
          simp only [List.map_cons, List.nodup_cons] at this
          exact this.2)
        hmatch2 hcover2
      constructor
      · intro i e hie
        match i with
        | 0 =>
            simp only [List.get?] at hie
            cases hie
            refine ⟨old, hkeyel ▸ hmem, hty, ?_⟩
            simp [hunfold]
        | i + 1 =>
            simp only [List.get?] at hie
            obtain ⟨o, homem, hoty, hres⟩ := hrest.1 i e hie
            refine ⟨o, hmdel _ homem, hoty, ?_⟩
            rw [List.map_cons, hunfold]
            exact hres
      · simp [hunfold]
        exact hrest.2

/-- The exported (but render-path-uninvoked) keyed algorithm
`reconcileChildrenWithKeys` on a reorder-only update: when the old
children carry pairwise-distinct explicit keys and the new elements are
the same keyed children (same key, same kind) in any order, every
produced child fiber is an `UPDATE` adopting exactly the DOM handle of
the old fiber with its key, and nothing is deleted. -/
theorem keyed_reorder_updates_in_place
    (olds : List OldFiber) (els : List Elem)
    (hoK : ∀ f ∈ olds, f.key.isSome)
    (hond : (olds.map oldKeyD).Nodup)
    (helK : ∀ el ∈ els, el.key.isSome)
    (helnd : (els.map elKeyD).Nodup)
    (hmatch : ∀ el ∈ els, ∃ old ∈ olds, oldKeyD old = elKeyD el ∧ old.type = el.type)
    (hcover : ∀ old ∈ olds, oldKeyD old ∈ els.map elKeyD) :
    (∀ i el, els.get? i = some el →
      ∃ old ∈ olds, oldKeyD old = elKeyD el ∧
        (reconcileChildrenWithKeys (els.map some) olds).1.get? i =
          some (some (mkUpdateFiber el old)) ∧
        (mkUpdateFiber el old).effectTag = EffectTag.UPDATE ∧
        (mkUpdateFiber el old).dom = old.dom) ∧
    (reconcileChildrenWithKeys (els.map some) olds).2 = [] := by
  have hbuild : buildOldFiberMap olds = olds.map (fun f => (oldKeyD f, f)) :=
    buildOldFiberMap_explicit olds hoK hond
  have hmkeys : ((olds.map (fun f => (oldKeyD f, f))).map Prod.fst).Nodup := by
    simpa [Function.comp] using hond
  have hmatch2 : ∀ el ∈ els,
      ∃ old, (elKeyD el, old) ∈ olds.map (fun f => (oldKeyD f, f)) ∧ old.type = el.type := by
    intro el hel
    obtain ⟨old, holdmem, hkey, hty⟩ := hmatch el hel
    exact ⟨old, hkey ▸ List.mem_map_of_mem (fun f => (oldKeyD f, f)) holdmem, hty⟩
  have hcover2 : ∀ p ∈ olds.map (fun f => (oldKeyD f, f)), p.1 ∈ els.map elKeyD := by
    intro p hp
    obtain ⟨f, hf, hpf⟩ := List.mem_map.mp hp
    subst hpf
    exact hcover f hf
  have hmain := reconcileKeyedAux_all_matched els 0 (olds.map (fun f => (oldKeyD f, f)))
    hmkeys helK helnd hmatch2 hcover2
  constructor
  · intro i el hie
    obtain ⟨old, homem, hoty, hres⟩ := hmain.1 i el hie
    obtain ⟨f, hf, hpf⟩ := List.mem_map.mp homem
    have hkeyeq : oldKeyD f = elKeyD el := congrArg Prod.fst hpf
    have hfeq : f = old := congrArg Prod.snd hpf
    subst hfeq
    refine ⟨f, hf, hkeyeq, ?_, rfl, rfl⟩
    simpa [reconcileChildrenWithKeys, hbuild] using hres
  · simp [reconcileChildrenWithKeys, hbuild, hmain.2]

/-- `keyed_reorder_updates_in_place` instantiated at children keyed
`a,b,c` reordered to `c,a,b`. -/
theorem keyed_reorder_updates_in_place_witness :
    (∀ f ∈ [liOld "a" 10, liOld "b" 11, liOld "c" 12], f.key.isSome) ∧
    (([liOld "a" 10, liOld "b" 11, liOld "c" 12].map oldKeyD).Nodup) ∧
    (∀ el ∈ [liEl "c", liEl "a", liEl "b"], el.key.isSome) ∧
    (([liEl "c", liEl "a", liEl "b"].map elKeyD).Nodup) ∧
    ((∀ i el, [liEl "c", liEl "a", liEl "b"].get? i = some el →
      ∃ old ∈ [liOld "a" 10, liOld "b" 11, liOld "c" 12], oldKeyD old = elKeyD el ∧
        (reconcileChildrenWithKeys ([liEl "c", liEl "a", liEl "b"].map some)
            [liOld "a" 10, liOld "b" 11, liOld "c" 12]).1.get? i =
          some (some (mkUpdateFiber el old)) ∧
        (mkUpdateFiber el old).effectTag = EffectTag.UPDATE ∧
        (mkUpdateFiber el old).dom = old.dom) ∧
    (reconcileChildrenWithKeys ([liEl "c", liEl "a", liEl "b"].map some)
        [liOld "a" 10, liOld "b" 11, liOld "c" 12]).2 = []) :=
  ⟨by decide, by decide, by decide, by decide,
    keyed_reorder_updates_in_place
      [liOld "a" 10, liOld "b" 11, liOld "c" 12]
      [liEl "c", liEl "a", liEl "b"]
      (by decide) (by decide) (by decide) (by decide) (by decide) (by decide)⟩

/-- Counterexample to C2: an actual re-render of children keyed `a,b,c`
(handles 10,11,12) in order `c,a,b` with identical content goes through
the positional path (`renderPathReconcile`), so the child keyed `c` at
position 0 is an `UPDATE` that adopts handle 10 — the handle of the old
child keyed `a` that stood at that position — and not handle 12, the
handle its own key owned before the reorder. -/
theorem keyed_reorder_on_render_path_moves_handle :
    (renderPathReconcile ([liEl "c", liEl "a", liEl "b"].map some)
        [liOld "a" 10, liOld "b" 11, liOld "c" 12]).1.get? 0 =
      some (some (mkUpdateFiber (liEl "c") (liOld "a" 10))) ∧
    (mkUpdateFiber (liEl "c") (liOld "a" 10)).effectTag = EffectTag.UPDATE ∧
    (mkUpdateFiber (liEl "c") (liOld "a" 10)).dom = some 10 ∧
    (liOld "c" 12).dom = some 12 ∧
    ¬ (mkUpdateFiber (liEl "c") (liOld "a" 10)).dom = (liOld "c" 12).dom :=
  ⟨by simp [renderPathReconcile, reconcileChildren, liEl, liOld, mkUpdateFiber],
    by decide, by decide, by decide, by decide⟩

/-- C2 (amended).  A re-render reconciles keyed children positionally
(`updateFunctionComponent`/`updateHostComponent` invoke only
`reconcileChildren`): for a reorder-only update of same-kind keyed
children, every child work unit is tagged `UPDATE` and none is recreated
or deleted, but each adopts the `outputHandle` of the old child at its
position rather than the handle its key owned before the reorder — a
moved keyed child gets a different DOM node (the key-stable handle
adoption claimed originally holds only of the exported
`reconcileChildrenWithKeys` algorithm, which no render path invokes). -/
theorem rerender_reorder_updates_positionally
    (els : List Elem) (olds : List OldFiber)
    (hlen : els.length = olds.length)
    (hty : ∀ p ∈ els.zip olds, p.1.type = p.2.type) :
    (∀ i el old, els.get? i = some el → olds.get? i = some old →
      (renderPathReconcile (els.map some) olds).1.get? i =
        some (some (mkUpdateFiber el old)) ∧
      (mkUpdateFiber el old).effectTag = EffectTag.UPDATE ∧
      (mkUpdateFiber el old).dom = old.dom) ∧
    (renderPathReconcile (els.map some) olds).2 = [] := by
  induction els generalizing olds with
  | nil =>
      cases olds with
      | nil =>
          exact ⟨fun i el old h1 h2 => by simp at h1,
            by simp [renderPathReconcile, reconcileChildren]⟩
      | cons o os => simp at hlen
  | cons el els ih =>
      cases olds with
      | nil => simp at hlen
      | cons old olds =>
          have hty0 : el.type = old.type :=
            hty (el, old) (by rw [List.zip_cons_cons]; exact List.mem_cons_self _ _)
          have hrest := ih olds (by simpa using hlen)
            (fun p hp =>
              hty p (by rw [List.zip_cons_cons]; exact List.mem_cons_of_mem _ hp))
          have hunfold : renderPathReconcile (some el :: els.map some) (old :: olds) =
              (some (mkUpdateFiber el old) :: (renderPathReconcile (els.map some) olds).1,
                (renderPathReconcile (els.map some) olds).2) := by
            simp [renderPathReconcile, reconcileChildren, hty0]
          constructor
          · intro i e o h1 h2
            match i with
            | 0 =>
                simp at h1 h2
                subst h1
                subst h2
                refine ⟨?_, rfl, rfl⟩
                rw [List.map_cons, hunfold]
                rfl
            | i + 1 =>
                have hpt := (hrest.1 i e o (by simpa using h1) (by simpa using h2)).1
                exact ⟨by
                  rw [List.map_cons, hunfold]
                  exact hpt, rfl, rfl⟩
          · rw [List.map_cons, hunfold]
            exact hrest.2

/-- Witness for amended C2 at the `a,b,c → c,a,b` re-render. -/
theorem rerender_reorder_updates_positionally_witness :
    ([liEl "c", liEl "a", liEl "b"].length =
      [liOld "a" 10, liOld "b" 11, liOld "c" 12].length) ∧
    (∀ p ∈ [liEl "c", liEl "a", liEl "b"].zip
        [liOld "a" 10, liOld "b" 11, liOld "c" 12], p.1.type = p.2.type) ∧
    ((∀ i el old, [liEl "c", liEl "a", liEl "b"].get? i = some el →
        [liOld "a" 10, liOld "b" 11, liOld "c" 12].get? i = some old →
        (renderPathReconcile ([liEl "c", liEl "a", liEl "b"].map some)
            [liOld "a" 10, liOld "b" 11, liOld "c" 12]).1.get? i =
          some (some (mkUpdateFiber el old)) ∧
        (mkUpdateFiber el old).effectTag = EffectTag.UPDATE ∧
        (mkUpdateFiber el old).dom = old.dom) ∧
      (renderPathReconcile ([liEl "c", liEl "a", liEl "b"].map some)
          [liOld "a" 10, liOld "b" 11, liOld "c" 12]).2 = []) :=
  ⟨by decide, by decide,
    rerender_reorder_updates_positionally
      [liEl "c", liEl "a", liEl "b"] [liOld "a" 10, liOld "b" 11, liOld "c" 12]
      (by decide) (by decide)⟩

/-- Counterexample to C1: on a tree with two effectful sibling fibers
the effect pass produces
`[cleanup 1, effect 1, cleanup 2, effect 2]` — the first fiber's new
effect runs before the second fiber's cleanup, so the cleanups of the
whole tree do NOT complete before the first new effect runs. -/
theorem runEffects_interleaves_across_fibers :
    runEffectsTrace twoEffectfulSiblings =
      [EffEvent.cleanupRun 1 0, EffEvent.effectRun 1 0,
        EffEvent.cleanupRun 2 0, EffEvent.effectRun 2 0] ∧
    ¬ wholeTreeCleanupsFirst (runEffectsTrace twoEffectfulSiblings) := by
  refine ⟨by decide, ?_⟩
  unfold wholeTreeCleanupsFirst
  decide

theorem cleanupPass_mem (fid : Nat) (oldHooks : Option (List HookRec))
    (hs : List HookRec) (i : Nat) (ev : EffEvent)
    (h : ev ∈ cleanupPass fid oldHooks hs i) :
    evFiber ev = fid ∧ isCleanupEv ev = true := by
  induction hs generalizing i with
  | nil => simp [cleanupPass] at h
  | cons hk hks ih =>
      simp only [cleanupPass] at h
      by_cases hc : (hk.isEffect && shouldRunCleanup hk (oldHookAt oldHooks i)) = true
      · rw [if_pos hc] at h
        rcases List.mem_cons.mp h with h0 | h1
        · subst h0
          exact ⟨rfl, rfl⟩
        · exact ih (i + 1) h1
      · rw [if_neg hc] at h
        exact ih (i + 1) h

theorem effectPass_mem (fid : Nat) (oldHooks : Option (List HookRec))
    (hs : List HookRec) (i : Nat) (ev : EffEvent)
    (h : ev ∈ effectPass fid oldHooks hs i) :
    evFiber ev = fid ∧ isCleanupEv ev = false := by
  induction hs generalizing i with
  | nil => simp [effectPass] at h
  | cons hk hks ih =>
      simp only [effectPass] at h
      by_cases hc : (hk.isEffect && shouldRunEffect hk (oldHookAt oldHooks i) &&
          (hk.effectOf).isSome) = true
      · rw [if_pos hc] at h
        rcases List.mem_cons.mp h with h0 | h1
        · subst h0
          exact ⟨rfl, rfl⟩
        · exact ih (i + 1) h1
      · rw [if_neg hc] at h
        exact ih (i + 1) h

theorem runEffectsTrace_mem_ids (t : EffTree) (ev : EffEvent)
    (h : ev ∈ runEffectsTrace t) : evFiber ev ∈ t.ids := by
  induction t with
  | nil => simp [runEffectsTrace] at h
  | node fid hooks oldHooks c s ihc ihs =>
      simp only [runEffectsTrace, List.mem_append] at h
      rcases h with ((h | h) | h) | h
      · exact (cleanupPass_mem fid oldHooks hooks 0 ev h).1 ▸
          List.mem_cons_self _ _
      · exact (effectPass_mem fid oldHooks hooks 0 ev h).1 ▸
          List.mem_cons_self _ _
      · exact List.mem_cons_of_mem _ (List.mem_append_left _ (ihc h))
      · exact List.mem_cons_of_mem _ (List.mem_append_right _ (ihs h))

/-- C1 (amended).  The per-fiber ordering that the code actually
guarantees: restricted to any single fiber, the effect pass runs all of
that fiber's due cleanups strictly before any of that fiber's new
effects (the whole-tree version is refuted by
`runEffects_interleaves_across_fibers`). -/
theorem runEffects_per_fiber_cleanups_first (t : EffTree)
    (hnd : t.ids.Nodup) (f : Nat) :
    ∃ cs es, (runEffectsTrace t).filter (fun e => evFiber e = f) = cs ++ es ∧
      (∀ e ∈ cs, isCleanupEv e = true) ∧ (∀ e ∈ es, isCleanupEv e = false) := by
  induction t with
  | nil => exact ⟨[], [], by simp [runEffectsTrace], by simp, by simp⟩
  | node fid hooks oldHooks c s ihc ihs =>
      have hnotin : fid ∉ c.ids ++ s.ids := by
        have := hnd
        simp only [EffTree.ids, List.nodup_cons] at this
        exact this.1
      have hndcs : (c.ids ++ s.ids).Nodup := by
        have := hnd
        simp only [EffTree.ids, List.nodup_cons] at this
        exact this.2
      have hndc : c.ids.Nodup := (List.nodup_append.mp hndcs).1
      have hnds : s.ids.Nodup := (List.nodup_append.mp hndcs).2.1
      have hdisj : c.ids.Disjoint s.ids := (List.nodup_append.mp hndcs).2.2
      by_cases hf : f = fid
      · subst hf
        have hfC : (runEffectsTrace c).filter (fun e => evFiber e = f) = [] := by
          rw [List.filter_eq_nil_iff]
          intro e he
          simp only [decide_eq_true_eq]
          intro hev
          exact hnotin (List.mem_append_left _ (hev ▸ runEffectsTrace_mem_ids c e he))
        have hfD : (runEffectsTrace s).filter (fun e => evFiber e = f) = [] := by
          rw [List.filter_eq_nil_iff]
          intro e he
          simp only [decide_eq_true_eq]
          intro hev
          exact hnotin (List.mem_append_right _ (hev ▸ runEffectsTrace_mem_ids s e he))
        refine ⟨(cleanupPass f oldHooks hooks 0).filter (fun e => evFiber e = f),
          (effectPass f oldHooks hooks 0).filter (fun e => evFiber e = f), ?_, ?_, ?_⟩
        · simp [runEffectsTrace, List.filter_append, hfC, hfD]
        · intro e he
          exact (cleanupPass_mem f oldHooks hooks 0 e (List.mem_of_mem_filter he)).2
        · intro e he
          exact (effectPass_mem f oldHooks hooks 0 e (List.mem_of_mem_filter he)).2
      · have hfA : (cleanupPass fid oldHooks hooks 0).filter (fun e => evFiber e = f) = [] := by
          rw [List.filter_eq_nil_iff]
          intro e he
          simp only [decide_eq_true_eq]
          intro hev
          exact hf (hev ▸ (cleanupPass_mem fid oldHooks hooks 0 e he).1)
        have hfB : (effectPass fid oldHooks hooks 0).filter (fun e => evFiber e = f) = [] := by
          rw [List.filter_eq_nil_iff]
          intro e he
          simp only [decide_eq_true_eq]
          intro hev
          exact hf (hev ▸ (effectPass_mem fid oldHooks hooks 0 e he).1)
        by_cases hfc : f ∈ c.ids
        · have hfD : (runEffectsTrace s).filter (fun e => evFiber e = f) = [] := by
            rw [List.filter_eq_nil_iff]
            intro e he
            simp only [decide_eq_true_eq]
            intro hev
            exact hdisj hfc (hev ▸ runEffectsTrace_mem_ids s e he)
          obtain ⟨cs, es, heq, hcs, hes⟩ := ihc hndc
          refine ⟨cs, es, ?_, hcs, hes⟩
          simp [runEffectsTrace, List.filter_append, hfA, hfB, hfD, heq]
        · have hfC : (runEffectsTrace c).filter (fun e => evFiber e = f) = [] := by
            rw [List.filter_eq_nil_iff]
            intro e he
            simp only [decide_eq_true_eq]
            intro hev
            exact hfc (hev ▸ runEffectsTrace_mem_ids c e he)
          obtain ⟨cs, es, heq, hcs, hes⟩ := ihs hnds
          refine ⟨cs, es, ?_, hcs, hes⟩
          simp [runEffectsTrace, List.filter_append, hfA, hfB, hfC, heq]

/-- Witness for amended C1, at the counterexample tree and fiber 1. -/
theorem runEffects_per_fiber_cleanups_first_witness :
    twoEffectfulSiblings.ids.Nodup ∧
    (∃ cs es,
      (runEffectsTrace twoEffectfulSiblings).filter (fun e => evFiber e = 1) = cs ++ es ∧
        (∀ e ∈ cs, isCleanupEv e = true) ∧ (∀ e ∈ es, isCleanupEv e = false)) :=
  ⟨by decide, runEffects_per_fiber_cleanups_first twoEffectfulSiblings (by decide) 1⟩

theorem depsChanged_eq_true_iff (prev next : List JSVal) :
    depsChanged (some prev) (some next) = true ↔
      prev.length ≠ next.length ∨
        ∃ i v w, prev.get? i = some v ∧ next.get? i = some w ∧ v ≠ w := by
  induction prev generalizing next with
  | nil =>
      cases next with
      | nil => simp [depsChanged]
      | cons b bs => simp [depsChanged]
  | cons a as ih =>
      cases next with
      | nil => simp [depsChanged]
      | cons b bs =>
          by_cases hab : a = b
          · subst hab
            constructor
            · intro h
              have h2 : depsChanged (some as) (some bs) = true := by
                simp only [depsChanged, List.zip_cons_cons, List.any_cons,
                  Bool.or_eq_true, decide_eq_true_eq, List.length_cons] at h ⊢
                rcases h with h | h | h
                · exact Or.inl (by omega)
                · exact absurd rfl h
                · exact Or.inr h
              rcases (ih bs).mp h2 with h3 | ⟨i, v, w, hv, hw, hvw⟩
              · exact Or.inl (by simpa using h3)
              · exact Or.inr ⟨i + 1, v, w, by simpa using hv, by simpa using hw, hvw⟩
            · intro h
              have h2 : depsChanged (some as) (some bs) = true := by
                rcases h with h | ⟨i, v, w, hv, hw, hvw⟩
                · exact (ih bs).mpr (Or.inl (by simpa using h))
                · match i with
                  | 0 =>
                      simp only [List.get?] at hv hw
                      cases hv; cases hw
                      exact absurd rfl hvw
                  | i + 1 =>
                      exact (ih bs).mpr (Or.inr ⟨i, v, w, by simpa using hv,
                        by simpa using hw, hvw⟩)
              simp only [depsChanged, List.zip_cons_cons, List.any_cons,
                Bool.or_eq_true, decide_eq_true_eq, List.length_cons] at h2 ⊢
              rcases h2 with h3 | h3
              · exact Or.inl (by omega)
              · exact Or.inr (Or.inr h3)
          · constructor
            · intro _
              exact Or.inr ⟨0, a, b, rfl, rfl, hab⟩
            · intro _
              simp [depsChanged, hab]

/-- C4.  The dependency gating `runEffects` applies to an effect hook
built by `useEffect` for this generation:
(a) an absent deps list re-runs the effect on every render;
(b) an empty deps list runs it on the first generation only;
(c) a present deps list (against a prior generation whose hook stored a
present list) re-runs it iff the lengths differ or some element fails
the `Object.is` check against the prior list's same-index element. -/
theorem effect_dependency_gating (effectId : Nat) (oldHook : HookRec) :
    (∀ oldHook? : Option HookRec,
      shouldRunEffect (useEffectHook (some effectId) none oldHook?) oldHook? = true) ∧
    (shouldRunEffect (useEffectHook (some effectId) (some []) none) none = true ∧
      (oldHook.depsOf = some [] →
        shouldRunEffect (useEffectHook (some effectId) (some []) (some oldHook))
          (some oldHook) = false)) ∧
    (∀ d dOld : List JSVal, oldHook.depsOf = some dOld →
      (shouldRunEffect (useEffectHook (some effectId) (some d) (some oldHook))
          (some oldHook) = true ↔
        d.length ≠ dOld.length ∨
          ∃ i v w, dOld.get? i = some v ∧ d.get? i = some w ∧ v ≠ w)) := by
  refine ⟨?_, ⟨?_, ?_⟩, ?_⟩
  · intro oldHook?
    simp [shouldRunEffect, useEffectHook, HookRec.depsOf]
  · simp [shouldRunEffect, useEffectHook, HookRec.depsOf]
  · intro hdeps
    have h : shouldRunEffect (useEffectHook (some effectId) (some []) (some oldHook))
        (some oldHook) = depsChanged oldHook.depsOf (some []) := by
      simp only [shouldRunEffect, useEffectHook, oldDepsOf, HookRec.depsOf,
        Option.isNone_some, Option.isNone_none, Bool.false_or]
    rw [h, hdeps]
    simp [depsChanged]
  · intro d dOld hdeps
    have : shouldRunEffect (useEffectHook (some effectId) (some d) (some oldHook))
        (some oldHook) = depsChanged (some dOld) (some d) := by
      have h : shouldRunEffect (useEffectHook (some effectId) (some d) (some oldHook))
          (some oldHook) = depsChanged oldHook.depsOf (some d) := by
        simp only [shouldRunEffect, useEffectHook, oldDepsOf, HookRec.depsOf,
          Option.isNone_some, Option.isNone_none, Bool.false_or]
      rw [h, hdeps]
    rw [this, depsChanged_eq_true_iff]
    constructor
    · intro h
      rcases h with h | h
      · exact Or.inl (Ne.symm h)
      · exact Or.inr h
    · intro h
      rcases h with h | h
      · exact Or.inl (Ne.symm h)
      · exact Or.inr h

/-- Witness for C4 at a concrete prior hook whose deps list is `[1]`. -/
theorem effect_dependency_gating_witness :
    ((HookRec.effectHook (some 9) (some 10) (some [JSVal.num 1])).depsOf =
        some [JSVal.num 1]) ∧
    ((∀ oldHook? : Option HookRec,
      shouldRunEffect (useEffectHook (some 7) none oldHook?) oldHook? = true) ∧
    (shouldRunEffect (useEffectHook (some 7) (some []) none) none = true ∧
      ((HookRec.effectHook (some 9) (some 10) (some [JSVal.num 1])).depsOf = some [] →
        shouldRunEffect (useEffectHook (some 7) (some [])
            (some (HookRec.effectHook (some 9) (some 10) (some [JSVal.num 1]))))
          (some (HookRec.effectHook (some 9) (some 10) (some [JSVal.num 1]))) = false)) ∧
    (∀ d dOld : List JSVal,
      (HookRec.effectHook (some 9) (some 10) (some [JSVal.num 1])).depsOf = some dOld →
      (shouldRunEffect (useEffectHook (some 7) (some d)
            (some (HookRec.effectHook (some 9) (some 10) (some [JSVal.num 1]))))
          (some (HookRec.effectHook (some 9) (some 10) (some [JSVal.num 1]))) = true ↔
        d.length ≠ dOld.length ∨
          ∃ i v w, dOld.get? i = some v ∧ d.get? i = some w ∧ v ≠ w))) :=
  ⟨rfl, effect_dependency_gating 7 (HookRec.effectHook (some 9) (some 10) (some [JSVal.num 1]))⟩

theorem smapGet_smapSet_self {α : Type} (m : List (String × α)) (k : String) (v : α) :
    smapGet (smapSet m k v) k = some v := by
  by_cases h : m.any (fun e => e.1 = k) = true
  · simp only [smapSet, h, if_pos]
    induction m with
    | nil => simp at h
    | cons e m ih =>
        by_cases hek : e.1 = k
        · simp [smapGet, List.find?, hek]
        · have h2 : m.any (fun e => e.1 = k) = true := by
            simp only [List.any_cons, Bool.or_eq_true, decide_eq_true_eq] at h
            rcases h with h | h
            · exact absurd h hek
            · simpa using h
          simpa [smapGet, List.find?, hek] using ih h2
  · simp only [smapSet, h, if_neg, Bool.not_eq_true]
    induction m with
    | nil => simp [smapGet, List.find?]
    | cons e m ih =>
        have hek : ¬ e.1 = k := by
          simp only [List.any_cons, Bool.or_eq_true, decide_eq_true_eq] at h
          intro hk
          exact h (Or.inl hk)
        have h2 : ¬ m.any (fun e => e.1 = k) = true := by
          simp only [List.any_cons, Bool.or_eq_true] at h
          intro hk
          exact h (Or.inr hk)
        simpa [smapGet, List.find?, hek] using ih h2

theorem smapHas_eq_isSome {α : Type} (m : List (String × α)) (k : String) :
    smapHas m k = (smapGet m k).isSome := by
  induction m with
  | nil => simp [smapHas, smapGet, List.find?]
  | cons e m ih =>
      by_cases hek : e.1 = k
      · simp [smapHas, smapGet, List.find?, hek]
      · simpa [smapHas, smapGet, List.find?, hek] using ih

theorem setStateCall_passes (key : String) (a : UpdateAction) (st : HookStore)
    (sch : Sched) (v0 : JSVal) (q : List UpdateAction)
    (hv : smapGet st.hookStates key = some v0)
    (hq : smapGet st.updateQueues key = some q)
    (hne : applyAction a v0 ≠ v0) :
    setStateCall key a st sch =
      ({ st with updateQueues := smapSet st.updateQueues key (q ++ [a]) },
        scheduleRerenderB sch) := by
  simp only [setStateCall, hv, hq, Option.getD_some]
  rw [if_neg hne]

theorem dispatchEvent_passes (key : String) (actions : List UpdateAction)
    (st : HookStore) (sch : Sched) (n : Nat) (v0 : JSVal) (q : List UpdateAction)
    (hv : smapGet st.hookStates key = some v0)
    (hq : smapGet st.updateQueues key = some q)
    (hroot : sch.currentRootSet = true)
    (hpass : ∀ a ∈ actions, applyAction a v0 ≠ v0) :
    (dispatchEvent key actions ⟨st, sch, n⟩).store.hookStates = st.hookStates ∧
    smapGet (dispatchEvent key actions ⟨st, sch, n⟩).store.updateQueues key =
      some (q ++ actions) ∧
    (dispatchEvent key actions ⟨st, sch, n⟩).renders = n ∧
    (dispatchEvent key actions ⟨st, sch, n⟩).sched =
      (if actions.isEmpty then sch else { sch with wipPending := true }) := by
  induction actions generalizing st sch q with
  | nil =>
      simp [dispatchEvent, hq]
  | cons a rest ih =>
      have hstep := setStateCall_passes key a st sch v0 q hv hq
        (hpass a (List.mem_cons_self a rest))
      have hunfold : dispatchEvent key (a :: rest) ⟨st, sch, n⟩ =
          dispatchEvent key rest
            ⟨{ st with updateQueues := smapSet st.updateQueues key (q ++ [a]) },
              scheduleRerenderB sch, n⟩ := by
        simp [dispatchEvent, hstep]
      have hsch : scheduleRerenderB sch = { sch with wipPending := true } := by
        simp [scheduleRerenderB, hroot]
      have hrec := ih { st with updateQueues := smapSet st.updateQueues key (q ++ [a]) }
        (scheduleRerenderB sch) (q ++ [a]) hv
        (smapGet_smapSet_self st.updateQueues key (q ++ [a]))
        (by simp [hsch, hroot])
        (fun b hb => hpass b (List.mem_cons_of_mem a hb))
      rw [hunfold]
      refine ⟨hrec.1, ?_, hrec.2.2.1, ?_⟩
      · simpa [List.append_assoc] using hrec.2.1
      · rw [hrec.2.2.2]
        by_cases hrest : rest.isEmpty
        · simp [hrest, hsch]
        · simp only [hrest, if_neg, Bool.not_eq_true, List.isEmpty_cons, if_false]
          rw [hsch]

/-- C3.  Batching of `setState`: several setter calls inside one trigger
cycle (each one passing the `Object.is` skip check against the persisted
value) enqueue their updates in call order and coalesce into a single
pending wip root; the next work-loop pass performs exactly one
additional render, drains the queue in enqueue order (functional
updaters receiving the running accumulated value, i.e. a left fold) and
persists the final value; afterwards the queue is empty, no further
render is pending and no scheduling warning fired. -/
theorem setState_batching (key : String) (initial v0 : JSVal)
    (actions : List UpdateAction) (st : HookStore) (sch : Sched) (n : Nat)
    (hv : smapGet st.hookStates key = some v0)
    (hq : smapGet st.updateQueues key = some [])
    (hroot : sch.currentRootSet = true)
    (hwip : sch.wipPending = false)
    (hne : actions ≠ [])
    (hpass : ∀ a ∈ actions, applyAction a v0 ≠ v0) :
    (workLoopB key initial 2 (dispatchEvent key actions ⟨st, sch, n⟩)).renders = n + 1 ∧
    smapGet (workLoopB key initial 2
        (dispatchEvent key actions ⟨st, sch, n⟩)).store.hookStates key =
      some (actions.foldl (fun acc a => applyAction a acc) v0) ∧
    smapGet (workLoopB key initial 2
        (dispatchEvent key actions ⟨st, sch, n⟩)).store.updateQueues key = some [] ∧
    (workLoopB key initial 2 (dispatchEvent key actions ⟨st, sch, n⟩)).sched.wipPending =
      false ∧
    (workLoopB key initial 2 (dispatchEvent key actions ⟨st, sch, n⟩)).sched.warned =
      sch.warned := by
  obtain ⟨hst, hqd, hrd, hschd⟩ :=
    dispatchEvent_passes key actions st sch n v0 [] hv hq hroot hpass
  have hnotempty : actions.isEmpty = false := by
    cases actions with
    | nil => exact absurd rfl hne
    | cons a rest => rfl
  rw [hnotempty] at hschd
  simp only [Bool.false_eq_true, if_false] at hschd
  set s1 := dispatchEvent key actions ⟨st, sch, n⟩ with hs1
  have hread : useStateRead key initial s1.store =
      (actions.foldl (fun acc a => applyAction a acc) v0,
        { updateQueues := smapSet s1.store.updateQueues key []
          hookStates := smapSet s1.store.hookStates key
            (actions.foldl (fun acc a => applyAction a acc) v0) }) := by
    have hhas : smapHas s1.store.updateQueues key = true := by
      rw [smapHas_eq_isSome]
      simp only [hqd]
      rfl
    simp only [useStateRead, hhas, if_pos, hqd, Option.getD_some, hst, hv,
      List.nil_append]
  have hloop : workLoopB key initial 2 s1 = renderOnce key initial s1 := by
    have hwp : s1.sched.wipPending = true := by
      rw [hschd]
    have hwp2 : (renderOnce key initial s1).sched.wipPending = false := rfl
    simp [workLoopB, hwp, hwp2]
  rw [hloop]
  simp only [renderOnce, hread]
  refine ⟨by rw [hrd], smapGet_smapSet_self _ key _, smapGet_smapSet_self _ key _,
    by trivial, by rw [hschd]⟩

/-- Witness for C3: three setter calls from committed state `0` yield
one additional render with final value `3`. -/
theorem setState_batching_witness :
    smapGet batchStore.hookStates batchKey = some (JSVal.num 0) ∧
    smapGet batchStore.updateQueues batchKey = some [] ∧
    batchSched.currentRootSet = true ∧
    batchActions ≠ [] ∧
    batchActions.foldl (fun acc a => applyAction a acc) (JSVal.num 0) = JSVal.num 3 ∧
    ((workLoopB batchKey (JSVal.num 0) 2
        (dispatchEvent batchKey batchActions ⟨batchStore, batchSched, 1⟩)).renders = 1 + 1 ∧
      smapGet (workLoopB batchKey (JSVal.num 0) 2
          (dispatchEvent batchKey batchActions ⟨batchStore, batchSched, 1⟩)).store.hookStates
          batchKey =
        some (batchActions.foldl (fun acc a => applyAction a acc) (JSVal.num 0)) ∧
      smapGet (workLoopB batchKey (JSVal.num 0) 2
          (dispatchEvent batchKey batchActions ⟨batchStore, batchSched, 1⟩)).store.updateQueues
          batchKey = some [] ∧
      (workLoopB batchKey (JSVal.num 0) 2
          (dispatchEvent batchKey batchActions ⟨batchStore, batchSched, 1⟩)).sched.wipPending =
        false ∧
      (workLoopB batchKey (JSVal.num 0) 2
          (dispatchEvent batchKey batchActions ⟨batchStore, batchSched, 1⟩)).sched.warned =
        batchSched.warned) :=
  ⟨rfl, rfl, rfl, by simp [batchActions], rfl,
    setState_batching batchKey (JSVal.num 0) (JSVal.num 0) batchActions batchStore
      batchSched 1 rfl rfl rfl rfl (by simp [batchActions])
      (by
        intro a ha
        fin_cases ha <;> decide)⟩

theorem reconcileChildren_nil_elements (olds : List OldFiber) :
    reconcileChildren [] olds = (olds.map (fun _ => none), olds.map markDeletion) := by
  induction olds with
  | nil => simp [reconcileChildren]
  | cons old olds ih => simp [reconcileChildren, ih]

/-- C6.  `render(null, container)` as an unmount: the root's new child
list is `[null]`, so positional reconciliation emits no new fiber and
tags every existing child `DELETION`; committing the deletion of a
mounted effectful component removes its host DOM node from the
container (leaving it empty) and invokes the component's stored cleanup
exactly once (the cleanup list is exactly `[c]`). -/
theorem render_null_unmounts (olds : List OldFiber) (c d : Nat) :
    ((reconcileChildren [none] olds).2 = olds.map markDeletion ∧
      (∀ old ∈ olds, markDeletion old ∈ (reconcileChildren [none] olds).2 ∧
        (markDeletion old).effectTag = some EffectTag.DELETION) ∧
      (∀ f ∈ (reconcileChildren [none] olds).1, f = none)) ∧
    ((commitDeletion (unmountedComponent c d) [d]).2.1 = [] ∧
      (commitDeletion (unmountedComponent c d) [d]).2.2 = [c]) := by
  constructor
  · have hmain : (reconcileChildren [none] olds).2 = olds.map markDeletion ∧
        (∀ f ∈ (reconcileChildren [none] olds).1, f = none) := by
      cases olds with
      | nil =>
          exact ⟨by simp [reconcileChildren], by simp [reconcileChildren]⟩
      | cons old olds =>
          constructor
          · simp [reconcileChildren, reconcileChildren_nil_elements]
          · intro f hf
            simp only [reconcileChildren, reconcileChildren_nil_elements,
              List.mem_cons] at hf
            rcases hf with h | h
            · exact h
            · obtain ⟨g, _, hgf⟩ := List.mem_map.mp h
              exact hgf.symm
    refine ⟨hmain.1, ?_, hmain.2⟩
    intro old hold
    exact ⟨hmain.1 ▸ List.mem_map_of_mem markDeletion hold, rfl⟩
  · constructor
    · simp [commitDeletion, cleanupTree, cleanupHooks, unmountedComponent]
    · simp [commitDeletion, cleanupTree, cleanupHooks, unmountedComponent]

/-- Counterexample to C7: `useCallback` called with no current work-unit
context does throw, but the error message is
`useMemo: must be called within a component` — it names `useMemo` (the
hook it delegates to), and the string `useCallback` does not occur in it. -/
theorem useCallback_error_does_not_name_useCallback :
    useCallbackEntry none = Except.error "useMemo: must be called within a component" ∧
    errorNaming (useCallbackEntry none) "useCallback" = false := by
  refine ⟨rfl, ?_⟩
  decide

/-- C7 (amended).  Every hook throws when called with no current
work-unit context; for `useState`, `useEffect`, `useMemo`, `useRef`,
`useReducer` and `useContext` the message names the offending hook, and
`useContext` additionally throws a `useContext`-naming error on an
invalid context object; `useCallback` also throws, but its message names
`useMemo`, the hook it delegates to, rather than `useCallback` itself. -/
theorem hooks_throw_outside_component :
    errorNaming (useStateEntry none) "useState" = true ∧
    errorNaming (useEffectEntry true none) "useEffect" = true ∧
    errorNaming (useMemoEntry true none) "useMemo" = true ∧
    errorNaming (useRefEntry none) "useRef" = true ∧
    errorNaming (useReducerEntry none) "useReducer" = true ∧
    errorNaming (useContextEntry true none) "useContext" = true ∧
    errorNaming (useContextEntry false (some ())) "useContext" = true ∧
    useCallbackEntry none = Except.error "useMemo: must be called within a component" ∧
    errorNaming (useCallbackEntry none) "useMemo" = true := by
  refine ⟨?_, ?_, ?_, ?_, ?_, ?_, ?_, rfl, ?_⟩ <;> decide

theorem cleanupPassRun_attempts (env : EffEnv) (fid : Nat)
    (oldHooks : Option (List HookRec)) (hs : List HookRec) :
    ∀ i, attemptsOf (cleanupPassRun env fid oldHooks hs i) =
      (cleanupPass fid oldHooks hs i).map evToCall := by
  induction hs with
  | nil => intro i; rfl
  | cons h hs ih =>
      intro i
      simp only [cleanupPassRun, cleanupPass]
      by_cases hc : (h.isEffect && shouldRunCleanup h (oldHookAt oldHooks i)) = true
      · rw [if_pos hc, if_pos hc]
        by_cases ht : cleanupThrew env (oldHookAt oldHooks i) = true
        · rw [if_pos ht]
          simp only [attemptsOf, List.filter_cons, List.map_cons] at ih ⊢
          simpa [evToCall] using ih (i + 1)
        · rw [if_neg ht]
          simp only [attemptsOf, List.filter_cons, List.map_cons] at ih ⊢
          simpa [evToCall] using ih (i + 1)
      · rw [if_neg hc, if_neg hc]
        exact ih (i + 1)

theorem effectPassRun_attempts (env : EffEnv) (fid : Nat)
    (oldHooks : Option (List HookRec)) (hs : List HookRec) :
    ∀ i, attemptsOf (effectPassRun env fid oldHooks hs i) =
      (effectPass fid oldHooks hs i).map evToCall := by
  induction hs with
  | nil => intro i; rfl
  | cons h hs ih =>
      intro i
      simp only [effectPassRun, effectPass]
      by_cases hc : (h.isEffect && shouldRunEffect h (oldHookAt oldHooks i) &&
          (h.effectOf).isSome) = true
      · rw [if_pos hc, if_pos hc]
        by_cases ht : effectThrew env h = true
        · rw [if_pos ht]
          simp only [attemptsOf, List.filter_cons, List.map_cons] at ih ⊢
          simpa [evToCall] using ih (i + 1)
        · rw [if_neg ht]
          simp only [attemptsOf, List.filter_cons, List.map_cons] at ih ⊢
          simpa [evToCall] using ih (i + 1)
      · rw [if_neg hc, if_neg hc]
        exact ih (i + 1)

/-- C8.  Per-hook failure isolation in the effect pass: whichever effect
callbacks or cleanup functions throw, the invocations attempted over the
whole tree are exactly the ideal (no-failure) schedule — an exception in
one hook is caught (and logged) without preventing any remaining cleanup
or effect of the tree from being invoked. -/
theorem effect_errors_do_not_abort (env : EffEnv) (t : EffTree) :
    attemptsOf (runEffectsRun env t) = (runEffectsTrace t).map evToCall := by
  induction t with
  | nil => rfl
  | node fid hooks oldHooks c s ihc ihs =>
      simp only [runEffectsRun, runEffectsTrace, attemptsOf, List.filter_append,
        List.map_append]
      have h1 := cleanupPassRun_attempts env fid oldHooks hooks 0
      have h2 := effectPassRun_attempts env fid oldHooks hooks 0
      simp only [attemptsOf] at h1 h2 ihc ihs
      rw [h1, h2, ihc, ihs]

/-- C9.  When the render pass completes, the commit phase commits the
wip root, swaps `currentRoot` to it and clears `wipRoot` strictly before
effects run; consequently a `setState` issued from inside an effect is
not dropped (no missing-root warning) and schedules a fresh render cycle
whose wip root has the just-committed root as its alternate, making the
loop re-enter rendering; with no effect-issued update the loop goes
idle with the committed root in place. -/
theorem commit_swaps_root_before_effects (s : WLState) (r : RootFiber) (freshId : Nat)
    (h1 : s.nextUnitOfWork = none) (h2 : s.wipRoot = some r) :
    ((workLoopCommitPhase noEffect s).1.currentRoot = some r ∧
      (workLoopCommitPhase noEffect s).1.wipRoot = none ∧
      (workLoopCommitPhase noEffect s).2.1 =
        [WLEv.commitRootEv r.id, WLEv.currentRootSwapEv r.id, WLEv.runEffectsEv r.id] ∧
      (workLoopCommitPhase noEffect s).2.2 = false) ∧
    ((workLoopCommitPhase (scheduleRerenderS freshId) s).1.currentRoot = some r ∧
      (workLoopCommitPhase (scheduleRerenderS freshId) s).1.wipRoot =
        some { id := freshId, alternateId := some r.id } ∧
      (workLoopCommitPhase (scheduleRerenderS freshId) s).2.1 =
        [WLEv.commitRootEv r.id, WLEv.currentRootSwapEv r.id, WLEv.runEffectsEv r.id,
          WLEv.scheduledEv freshId] ∧
      WLEv.warnNoCurrentRootEv ∉ (workLoopCommitPhase (scheduleRerenderS freshId) s).2.1 ∧
      (workLoopCommitPhase (scheduleRerenderS freshId) s).2.2 = true) := by
  cases s with
  | mk nuow cur wip =>
      simp only at h1 h2
      subst h1 h2
      refine ⟨⟨rfl, rfl, rfl, rfl⟩, ⟨?_, ?_, ?_, ?_, ?_⟩⟩ <;>
        simp [workLoopCommitPhase, scheduleRerenderS, noEffect]

/-- Witness for C9 at a concrete completed render. -/
theorem commit_swaps_root_before_effects_witness :
    ({ nextUnitOfWork := none, currentRoot := some { id := 1, alternateId := none },
        wipRoot := some { id := 2, alternateId := some 1 } } : WLState).nextUnitOfWork =
      none ∧
    ({ nextUnitOfWork := none, currentRoot := some { id := 1, alternateId := none },
        wipRoot := some { id := 2, alternateId := some 1 } } : WLState).wipRoot =
      some { id := 2, alternateId := some 1 } ∧
    (((workLoopCommitPhase noEffect
          { nextUnitOfWork := none, currentRoot := some { id := 1, alternateId := none },
            wipRoot := some { id := 2, alternateId := some 1 } }).1.currentRoot =
        some { id := 2, alternateId := some 1 } ∧
      (workLoopCommitPhase noEffect
          { nextUnitOfWork := none, currentRoot := some { id := 1, alternateId := none },
            wipRoot := some { id := 2, alternateId := some 1 } }).1.wipRoot = none ∧
      (workLoopCommitPhase noEffect
          { nextUnitOfWork := none, currentRoot := some { id := 1, alternateId := none },
            wipRoot := some { id := 2, alternateId := some 1 } }).2.1 =
        [WLEv.commitRootEv 2, WLEv.currentRootSwapEv 2, WLEv.runEffectsEv 2] ∧
      (workLoopCommitPhase noEffect
          { nextUnitOfWork := none, currentRoot := some { id := 1, alternateId := none },
            wipRoot := some { id := 2, alternateId := some 1 } }).2.2 = false) ∧
    ((workLoopCommitPhase (scheduleRerenderS 3)
          { nextUnitOfWork := none, currentRoot := some { id := 1, alternateId := none },
            wipRoot := some { id := 2, alternateId := some 1 } }).1.currentRoot =
        some { id := 2, alternateId := some 1 } ∧
      (workLoopCommitPhase (scheduleRerenderS 3)
          { nextUnitOfWork := none, currentRoot := some { id := 1, alternateId := none },
            wipRoot := some { id := 2, alternateId := some 1 } }).1.wipRoot =
        some { id := 3, alternateId := some 2 } ∧
      (workLoopCommitPhase (scheduleRerenderS 3)
          { nextUnitOfWork := none, currentRoot := some { id := 1, alternateId := none },
            wipRoot := some { id := 2, alternateId := some 1 } }).2.1 =
        [WLEv.commitRootEv 2, WLEv.currentRootSwapEv 2, WLEv.runEffectsEv 2,
          WLEv.scheduledEv 3] ∧
      WLEv.warnNoCurrentRootEv ∉ (workLoopCommitPhase (scheduleRerenderS 3)
          { nextUnitOfWork := none, currentRoot := some { id := 1, alternateId := none },
            wipRoot := some { id := 2, alternateId := some 1 } }).2.1 ∧
      (workLoopCommitPhase (scheduleRerenderS 3)
          { nextUnitOfWork := none, currentRoot := some { id := 1, alternateId := none },
            wipRoot := some { id := 2, alternateId := some 1 } }).2.2 = true)) :=
  ⟨rfl, rfl,
    commit_swaps_root_before_effects
      { nextUnitOfWork := none, currentRoot := some { id := 1, alternateId := none },
        wipRoot := some { id := 2, alternateId := some 1 } }
      { id := 2, alternateId := some 1 } 3 rfl rfl⟩

/-- C10.  The state-cell key of `useState`/`useReducer` is derived from
the component function's name and the hook position only, so two
distinct simultaneously mounted work units whose types share a function
name hit the same cell: a read in the second unit returns the value
persisted under the first unit's key — never its own independent
initial value. -/
theorem hook_state_shared_by_component_name (u1 u2 : WorkUnit) (i : Nat)
    (hname : u1.typeName = u2.typeName) (hdiff : u1.unitId ≠ u2.unitId) :
    unitHookKey u1 i = unitHookKey u2 i ∧
    ∀ (st : HookStore) (v0 init2 : JSVal),
      smapGet st.hookStates (unitHookKey u1 i) = some v0 →
      smapGet st.updateQueues (unitHookKey u1 i) = some [] →
      (useStateRead (unitHookKey u2 i) init2 st).1 = v0 := by
  have hkey : unitHookKey u1 i = unitHookKey u2 i := by
    simp [unitHookKey, hookKey, hname]
  refine ⟨hkey, ?_⟩
  intro st v0 init2 hv hq
  rw [← hkey]
  have hhas : smapHas st.updateQueues (unitHookKey u1 i) = true := by
    rw [smapHas_eq_isSome, hq]
    rfl
  simp [useStateRead, hhas, hq, hv]

/-- Witness for C10: two mounted instances of a component named
`Counter` share the cell persisted at value `42`. -/
theorem hook_state_shared_by_component_name_witness :
    ({ typeName := "Counter", unitId := 1 } : WorkUnit).typeName =
      ({ typeName := "Counter", unitId := 2 } : WorkUnit).typeName ∧
    ({ typeName := "Counter", unitId := 1 } : WorkUnit).unitId ≠
      ({ typeName := "Counter", unitId := 2 } : WorkUnit).unitId ∧
    (unitHookKey { typeName := "Counter", unitId := 1 } 0 =
      unitHookKey { typeName := "Counter", unitId := 2 } 0 ∧
    ∀ (st : HookStore) (v0 init2 : JSVal),
      smapGet st.hookStates (unitHookKey { typeName := "Counter", unitId := 1 } 0) =
        some v0 →
      smapGet st.updateQueues (unitHookKey { typeName := "Counter", unitId := 1 } 0) =
        some [] →
      (useStateRead (unitHookKey { typeName := "Counter", unitId := 2 } 0) init2 st).1 =
        v0) :=
  ⟨rfl, by decide,
    hook_state_shared_by_component_name
      { typeName := "Counter", unitId := 1 } { typeName := "Counter", unitId := 2 } 0
      rfl (by decide)⟩

end MiniReact
